import Mathlib

/-!
Verification of the swear-killer subtitle-to-mute-interval pipeline.

The Go source (gui.go and the command-line entry point) is shallowly embedded
below.  Machine `float64` values are modelled as exact rationals (`ℚ`): the
pipeline only adds, compares and takes maxima of time values, and no claim
under consideration depends on binary floating-point rounding.  File handles
are modelled by passing the file's lines as a `List String`; fallible
operations return `Option`.
-/

/-- Segment represents a time range for muting audio (struct Segment, gui.go). -/
structure Segment where
  Start : ℚ
  End : ℚ
deriving DecidableEq, Repr

/-- The ordering used by `sort.Slice(segments, func(i, j) { return s[i].Start < s[j].Start })`:
a list is a possible outcome of that sort exactly when it is pairwise
nondecreasing in `Start` (ties in arbitrary order). -/
def rStart (a b : Segment) : Prop := a.Start ≤ b.Start

instance : DecidableRel rStart := fun a b => inferInstanceAs (Decidable (a.Start ≤ b.Start))

instance : IsTotal Segment rStart := ⟨fun a b => le_total a.Start b.Start⟩

instance : IsTrans Segment rStart := ⟨fun _ _ _ h h' => le_trans h h'⟩

/-- The sweep loop of `mergeSegments` (gui.go lines 167-181): `current` is the
running interval, the list argument is the remaining sorted input. -/
def mergeLoop (current : Segment) : List Segment → List Segment
  | [] => [current]
  | s :: rest =>
    if s.Start ≤ current.End + 1 then
      mergeLoop ⟨current.Start, if s.End > current.End then s.End else current.End⟩ rest
    else
      current :: mergeLoop s rest

/-- mergeSegments combines overlapping or close segments (within 1 second)
(gui.go lines 157-182).  The Go function first sorts the slice by `Start`,
then sweeps with `mergeLoop`; the returned value is a fresh slice. -/
def mergeSegments (segments : List Segment) : List Segment :=
  match List.insertionSort rStart segments with
  | [] => []
  | c :: rest => mergeLoop c rest

/-- The content of the CALLER's slice after `mergeSegments` returns: Go's
`sort.Slice` reorders the caller's backing array in place (gui.go line 163),
so after the call the input slice holds its intervals sorted by start time.
(When the input is empty the function returns before sorting.) -/
def mergeSegmentsInPlace (segments : List Segment) : List Segment :=
  if segments.isEmpty then segments else List.insertionSort rStart segments

/-- Every interval produced by the sweep starts where some input interval
starts (merging never changes `current.Start`). -/
theorem mergeLoop_start_mem (current : Segment) (l : List Segment) :
    ∀ x ∈ mergeLoop current l, ∃ y ∈ current :: l, x.Start = y.Start := by
  induction l generalizing current with
  | nil =>
    intro x hx
    simp only [mergeLoop, List.mem_singleton] at hx
    exact ⟨current, by simp [hx]⟩
  | cons s rest ih =>
    intro x hx
    simp only [mergeLoop] at hx
    by_cases h : s.Start ≤ current.End + 1
    · rw [if_pos h] at hx
      obtain ⟨y, hy, hxy⟩ := ih _ x hx
      rcases List.mem_cons.1 hy with h' | h'
      · exact ⟨current, List.mem_cons_self _ _, by rw [hxy, h']⟩
      · exact ⟨y, by simp [h'], hxy⟩
    · rw [if_neg h] at hx
      rcases List.mem_cons.1 hx with h' | h'
      · exact ⟨current, List.mem_cons_self _ _, by rw [h']⟩
      · obtain ⟨y, hy, hxy⟩ := ih _ x h'
        rcases List.mem_cons.1 hy with h'' | h''
        · exact ⟨s, by simp, by rw [hxy, h'']⟩
        · exact ⟨y, by simp [h''], hxy⟩

/-- The sweep's first output interval keeps the running interval's start. -/
theorem mergeLoop_head (current : Segment) (l : List Segment) :
    ∃ e t, mergeLoop current l = Segment.mk current.Start e :: t := by
  induction l generalizing current with
  | nil => exact ⟨current.End, [], rfl⟩
  | cons s rest ih =>
    simp only [mergeLoop]
    by_cases h : s.Start ≤ current.End + 1
    · rw [if_pos h]
      exact ih _
    · rw [if_neg h]
      exact ⟨current.End, mergeLoop s rest, rfl⟩

/-- Consecutive sweep outputs are separated by a gap strictly greater than the
one-second merge threshold. -/
theorem mergeLoop_gap (current : Segment) (l : List Segment) :
    List.Chain' (fun a b => a.End + 1 < b.Start) (mergeLoop current l) := by
  induction l generalizing current with
  | nil => simp [mergeLoop]
  | cons s rest ih =>
    simp only [mergeLoop]
    by_cases h : s.Start ≤ current.End + 1
    · rw [if_pos h]
      exact ih _
    · rw [if_neg h]
      rw [List.chain'_cons']
      refine ⟨?_, ih _⟩
      intro y hy
      obtain ⟨e, t, ht⟩ := mergeLoop_head s rest
      rw [ht] at hy
      simp only [List.head?_cons, Option.mem_def, Option.some.injEq] at hy
      rw [← hy]
      simpa using lt_of_not_ge fun hc => h (le_of_lt (lt_of_le_of_lt hc (by linarith)))

/-- If every input interval has `Start ≤ End` then so does every sweep output. -/
theorem mergeLoop_wf (current : Segment) (l : List Segment)
    (hc : current.Start ≤ current.End) (hl : ∀ x ∈ l, x.Start ≤ x.End) :
    ∀ x ∈ mergeLoop current l, x.Start ≤ x.End := by
  induction l generalizing current with
  | nil =>
    intro x hx
    simp only [mergeLoop, List.mem_singleton] at hx
    rw [hx]; exact hc
  | cons s rest ih =>
    intro x hx
    simp only [mergeLoop] at hx
    by_cases h : s.Start ≤ current.End + 1
    · rw [if_pos h] at hx
      refine ih _ ?_ (fun y hy => hl y (by simp [hy])) x hx
      by_cases h' : s.End > current.End
      · simpa [h'] using le_trans hc (le_of_lt h')
      · simpa [h'] using hc
    · rw [if_neg h] at hx
      rcases List.mem_cons.1 hx with h' | h'
      · rw [h']; exact hc
      · exact ih _ (hl s (by simp)) (fun y hy => hl y (by simp [hy])) x h'

/-- The sweep preserves the nondecreasing-starts invariant. -/
theorem mergeLoop_pairwise (current : Segment) (l : List Segment)
    (h : List.Pairwise rStart (current :: l)) :
    List.Pairwise rStart (mergeLoop current l) := by
  induction l generalizing current with
  | nil => simp [mergeLoop]
  | cons s rest ih =>
    simp only [mergeLoop]
    rcases List.pairwise_cons.1 h with ⟨hcur, hrest⟩
    by_cases hle : s.Start ≤ current.End + 1
    · rw [if_pos hle]
      refine ih _ (List.pairwise_cons.2 ⟨?_, (List.pairwise_cons.1 hrest).2⟩)
      intro y hy
      exact hcur y (by simp [hy])
    · rw [if_neg hle]
      refine List.pairwise_cons.2 ⟨?_, ih _ hrest⟩
      intro y hy
      obtain ⟨z, hz, hyz⟩ := mergeLoop_start_mem s rest y hy
      have : rStart current z := hcur z hz
      unfold rStart at this ⊢
      rw [hyz]; exact this

/-- When consecutive intervals are already separated by more than the
threshold, the sweep changes nothing. -/
theorem mergeLoop_of_gap (current : Segment) (l : List Segment)
    (h : List.Chain' (fun a b => a.End + 1 < b.Start) (current :: l)) :
    mergeLoop current l = current :: l := by
  induction l generalizing current with
  | nil => rfl
  | cons s rest ih =>
    rcases List.chain'_cons.1 h with ⟨hgap, htail⟩
    simp only [mergeLoop]
    rw [if_neg (not_le.2 hgap)]
    rw [ih s htail]

/-- In a gap chain of well-formed intervals, the head's end bounds every
later interval's start. -/
theorem gap_chain_head_lt (a : Segment) (t : List Segment)
    (h : List.Chain' (fun a b => a.End + 1 < b.Start) (a :: t))
    (hwf : ∀ x ∈ t, x.Start ≤ x.End) :
    ∀ x ∈ t, a.End + 1 < x.Start := by
  induction t generalizing a with
  | nil => intro x hx; simp at hx
  | cons b t' ih =>
    rcases List.chain'_cons.1 h with ⟨hab, htail⟩
    intro x hx
    rcases List.mem_cons.1 hx with h' | h'
    · rw [h']; exact hab
    · have hb := hwf b (by simp)
      have := ih b htail (fun y hy => hwf y (by simp [hy])) x h'
      linarith

/-- A gap chain over well-formed intervals yields strictly increasing starts. -/
theorem gap_chain_pairwise_lt (l : List Segment)
    (hchain : List.Chain' (fun a b => a.End + 1 < b.Start) l)
    (hwf : ∀ x ∈ l, x.Start ≤ x.End) :
    List.Pairwise (fun a b => a.Start < b.Start) l := by
  induction l with
  | nil => exact List.Pairwise.nil
  | cons a t ih =>
    refine List.pairwise_cons.2 ⟨?_, ih ((List.chain'_cons'.1 hchain).2)
      (fun y hy => hwf y (by simp [hy]))⟩
    intro x hx
    have h1 := gap_chain_head_lt a t hchain (fun y hy => hwf y (by simp [hy])) x hx
    have h2 := hwf a (by simp)
    linarith

/-- The merged result is pairwise nondecreasing in start time. -/
theorem mergeSegments_sorted (segments : List Segment) :
    List.Pairwise rStart (mergeSegments segments) := by
  unfold mergeSegments
  cases hs : List.insertionSort rStart segments with
  | nil => exact List.Pairwise.nil
  | cons c rest =>
    apply mergeLoop_pairwise
    have h := List.sorted_insertionSort rStart segments
    rw [hs] at h
    exact h

/-- Consecutive merged intervals are separated by more than one second. -/
theorem mergeSegments_chain_gap (segments : List Segment) :
    List.Chain' (fun a b => a.End + 1 < b.Start) (mergeSegments segments) := by
  unfold mergeSegments
  cases List.insertionSort rStart segments with
  | nil => exact List.chain'_nil
  | cons c rest => exact mergeLoop_gap c rest

/-- Merging a list that is already sorted and gap-separated changes nothing. -/
theorem mergeSegments_of_merged (m : List Segment)
    (hpw : List.Pairwise rStart m)
    (hgap : List.Chain' (fun a b => a.End + 1 < b.Start) m) :
    mergeSegments m = m := by
  unfold mergeSegments
  rw [List.Sorted.insertionSort_eq hpw]
  cases m with
  | nil => rfl
  | cons c rest => exact mergeLoop_of_gap c rest hgap

/-- C6: the Interval Merger is idempotent: applying `mergeSegments` to its own
output returns that output unchanged. -/
theorem mergeSegments_idempotent (segments : List Segment) :
    mergeSegments (mergeSegments segments) = mergeSegments segments :=
  mergeSegments_of_merged _ (mergeSegments_sorted segments) (mergeSegments_chain_gap segments)

/-- C4 counterexample: with no precondition on the inputs the claim fails: a
(malformed) input interval with `end < start` passes through the Merger
untouched, so the output contains an interval with `start > end`. -/
theorem mergeSegments_postconditions_cex :
    ∃ seg ∈ mergeSegments [Segment.mk 0 (-2)], ¬ seg.Start ≤ seg.End := by
  decide

/-- C4 (amended): provided every INPUT interval satisfies `start ≤ end`, every
output interval of the Merger has `start ≤ end`, the output is strictly
ordered by start time, consecutive outputs `(a, b)` satisfy
`b.start > a.end + 1.0`, and the empty input yields the empty output. -/
theorem mergeSegments_postconditions (segments : List Segment)
    (h : ∀ seg ∈ segments, seg.Start ≤ seg.End) :
    (∀ seg ∈ mergeSegments segments, seg.Start ≤ seg.End) ∧
    List.Pairwise (fun a b => a.Start < b.Start) (mergeSegments segments) ∧
    List.Chain' (fun a b => a.End + 1 < b.Start) (mergeSegments segments) ∧
    mergeSegments [] = [] := by
  have hwf : ∀ seg ∈ mergeSegments segments, seg.Start ≤ seg.End := by
    unfold mergeSegments
    cases hs : List.insertionSort rStart segments with
    | nil => intro seg hseg; simp at hseg
    | cons c rest =>
      have hmem : ∀ x ∈ c :: rest, x.Start ≤ x.End := by
        intro x hx
        apply h
        have : x ∈ List.insertionSort rStart segments := by rw [hs]; exact hx
        exact (List.mem_insertionSort rStart).1 this
      exact mergeLoop_wf c rest (hmem c (by simp)) (fun y hy => hmem y (by simp [hy]))
  refine ⟨hwf, ?_, mergeSegments_chain_gap segments, rfl⟩
  exact gap_chain_pairwise_lt _ (mergeSegments_chain_gap segments) hwf

/-- Witness for C4 at the spec's own merge example. -/
theorem mergeSegments_postconditions_witness :
    (∀ seg ∈ ([Segment.mk 1 2, Segment.mk (mkRat 5 2) 3, Segment.mk 10 11] : List Segment),
      seg.Start ≤ seg.End) ∧
    ((∀ seg ∈ mergeSegments [Segment.mk 1 2, Segment.mk (mkRat 5 2) 3, Segment.mk 10 11],
      seg.Start ≤ seg.End) ∧
    List.Pairwise (fun a b => a.Start < b.Start)
      (mergeSegments [Segment.mk 1 2, Segment.mk (mkRat 5 2) 3, Segment.mk 10 11]) ∧
    List.Chain' (fun a b => a.End + 1 < b.Start)
      (mergeSegments [Segment.mk 1 2, Segment.mk (mkRat 5 2) 3, Segment.mk 10 11]) ∧
    mergeSegments [] = []) :=
  ⟨by decide, mergeSegments_postconditions _ (by decide)⟩

/-- C10 counterexample: `mergeSegments` sorts the caller's slice in place
(`sort.Slice` on line 163 of gui.go mutates the backing array), so after the
call the caller's input no longer holds the same intervals in the same order. -/
theorem mergeSegments_mutates_input_cex :
    mergeSegmentsInPlace [Segment.mk 5 6, Segment.mk 1 2] ≠
      [Segment.mk 5 6, Segment.mk 1 2] := by
  decide

/-- C10 (amended): the Merger returns its result as a separate value, but it
reorders the caller's input slice in place: afterwards the input holds exactly
the same intervals (as a multiset) permuted into nondecreasing start order. -/
theorem mergeSegments_input_permuted (segments : List Segment) :
    (mergeSegmentsInPlace segments).Perm segments ∧
    List.Pairwise rStart (mergeSegmentsInPlace segments) := by
  unfold mergeSegmentsInPlace
  by_cases h : segments.isEmpty
  · rw [if_pos h]
    rw [List.isEmpty_iff] at h
    subst h
    exact ⟨List.Perm.refl _, List.Pairwise.nil⟩
  · rw [if_neg h]
    exact ⟨List.perm_insertionSort rStart segments, List.sorted_insertionSort rStart segments⟩

/-- The decimal digit character for `d` (used to reason about digit strings). -/
def digitC (d : ℕ) : Char := Char.ofNat (48 + d)

/-- The numeric value Go's parser extracts from a digit character (`c - '0'`). -/
def digVal (c : Char) : ℕ := c.toNat - 48

/-- Model of Go `strings.Replace(s, ",", ".", 1)`: replace the first comma. -/
def replaceFirstComma : List Char → List Char
  | [] => []
  | c :: rest => if c = ',' then '.' :: rest else c :: replaceFirstComma rest

/-- Model of Go `time`'s `getnum`: one or two decimal digits (`fixed` forces
exactly two, as for the layout's zero-padded minute and second fields). -/
def getnum2 (fixed : Bool) : List Char → Option (ℕ × List Char)
  | [] => none
  | [a] => if a.isDigit then (if fixed then none else some (digVal a, [])) else none
  | a :: b :: rest =>
    if a.isDigit then
      if b.isDigit then some (digVal a * 10 + digVal b, rest)
      else if fixed then none else some (digVal a, b :: rest)
    else none

/-- A literal `:` from the layout `15:04:05.000`. -/
def expectColon : List Char → Option (List Char)
  | ':' :: rest => some rest
  | _ => none

/-- Model of Go `time`'s `parseNanoseconds` for the layout's `.000` field: a
comma or period followed by exactly three digits, which must end the input.
Returns the milliseconds value. -/
def parseFrac : List Char → Option ℕ
  | [sep, a, b, c] =>
    if (sep == '.' || sep == ',') && a.isDigit && b.isDigit && c.isDigit then
      some (digVal a * 100 + digVal b * 10 + digVal c)
    else none
  | _ => none

/-- Model of Go `time.Parse("15:04:05.000", value)`, restricted to the fields
the layout mentions: returns (hour, minute, second, millisecond).  After the
layout scan Go validates the ranges: hour < 24, minute < 60, second < 60
(time/format.go `Parse`); out-of-range values are an error. -/
def goTimeParse (l : List Char) : Option (ℕ × ℕ × ℕ × ℕ) :=
  (getnum2 false l).bind fun p1 =>
  (expectColon p1.2).bind fun l2 =>
  (getnum2 true l2).bind fun p2 =>
  (expectColon p2.2).bind fun l4 =>
  (getnum2 true l4).bind fun p3 =>
  (parseFrac p3.2).bind fun ms =>
  if p1.1 < 24 ∧ p2.1 < 60 ∧ p3.1 < 60 then some (p1.1, p2.1, p3.1, ms) else none

/-- parseSRTTime converts an SRT timestamp (e.g. "00:01:23,456") to seconds
(gui.go lines 53-65): replace the first comma by a period, parse with layout
`15:04:05.000`, and return `hour*3600 + minute*60 + second + ns/1e9` seconds. -/
def parseSRTTime (srtTime : String) : Option ℚ :=
  (goTimeParse (replaceFirstComma srtTime.data)).map fun t =>
    (t.1 : ℚ) * 3600 + (t.2.1 : ℚ) * 60 + (t.2.2.1 : ℚ) + (t.2.2.2 : ℚ) / 1000

/-- Two-digit zero-padded rendering of `n ≤ 99`. -/
def pad2 (n : ℕ) : List Char := [digitC (n / 10), digitC (n % 10)]

/-- Three-digit zero-padded rendering of `n ≤ 999`. -/
def pad3dig (n : ℕ) : List Char := [digitC (n / 100), digitC (n / 10 % 10), digitC (n % 10)]

/-- The canonical `HH:MM:SS,mmm` rendering of an hour/minute/second/millisecond
quadruple. -/
def renderSRT (h m s ms : ℕ) : String :=
  String.mk (pad2 h ++ ':' :: pad2 m ++ ':' :: pad2 s ++ ',' :: pad3dig ms)

/-- The lexical form `HH:MM:SS,mmm` when it starts the character list (with
arbitrary trailing characters), exactly the timestamp component
`\d{2}:\d{2}:\d{2},\d{3}` of the scanner's regular expression. -/
def tsPat12 : List Char → Bool
  | a :: b :: c :: d :: e :: f :: g :: h :: i :: j :: k :: l :: _ =>
    a.isDigit && b.isDigit && c == ':' && d.isDigit && e.isDigit && f == ':' &&
    g.isDigit && h.isDigit && i == ',' && j.isDigit && k.isDigit && l.isDigit
  | _ => false

/-- A string consisting of the lexical form `HH:MM:SS,mmm` and nothing else. -/
def isSRTTimestampFormat (s : String) : Bool :=
  tsPat12 s.data && s.data.length == 12

theorem digitC_isDigit {x : ℕ} (hx : x ≤ 9) : (digitC x).isDigit = true := by
  interval_cases x <;> decide

theorem digVal_digitC {x : ℕ} (hx : x ≤ 9) : digVal (digitC x) = x := by
  interval_cases x <;> decide

theorem digitC_ne_comma {x : ℕ} (hx : x ≤ 9) : digitC x ≠ ',' := by
  interval_cases x <;> decide

theorem replaceFirstComma_cons_ne {c : Char} (hc : c ≠ ',') (l : List Char) :
    replaceFirstComma (c :: l) = c :: replaceFirstComma l := by
  simp [replaceFirstComma, hc]

theorem replaceFirstComma_comma (l : List Char) :
    replaceFirstComma (',' :: l) = '.' :: l := by
  simp [replaceFirstComma]

/-- C3 counterexample: `"25:00:00,000"` has the lexical form `HH:MM:SS,mmm`
with a non-negative hour, but the Timestamp Converter REJECTS it: Go's
`time.Parse` validates the hour against the range 0..23, so the conversion
fails rather than returning 90000 seconds. -/
theorem parseSRTTime_hour_cex :
    isSRTTimestampFormat "25:00:00,000" = true ∧ parseSRTTime "25:00:00,000" = none := by
  constructor
  · decide
  · decide

/-- C3 (amended): for every timestamp of the lexical form `HH:MM:SS,mmm` whose
hour is at most 23 (and minute/second at most 59 — Go's `time.Parse` validates
these calendar ranges and rejects anything larger, including every hour ≥ 24),
the Timestamp Converter succeeds and returns exactly
`HH*3600 + MM*60 + SS + mmm/1000` seconds. -/
theorem parseSRTTime_valid (h m s ms : ℕ)
    (hh : h ≤ 23) (hm : m ≤ 59) (hs : s ≤ 59) (hms : ms ≤ 999) :
    parseSRTTime (renderSRT h m s ms) =
      some ((h : ℚ) * 3600 + (m : ℚ) * 60 + (s : ℚ) + (ms : ℚ) / 1000) := by
  have b1 : h / 10 ≤ 9 := by omega
  have b2 : h % 10 ≤ 9 := by omega
  have b3 : m / 10 ≤ 9 := by omega
  have b4 : m % 10 ≤ 9 := by omega
  have b5 : s / 10 ≤ 9 := by omega
  have b6 : s % 10 ≤ 9 := by omega
  have b7 : ms / 100 ≤ 9 := by omega
  have b8 : ms / 10 % 10 ≤ 9 := by omega
  have b9 : ms % 10 ≤ 9 := by omega
  have hcolon : (':' : Char) ≠ ',' := by decide
  have hdot : (('.' : Char) == '.') = true := by decide
  have hdata : (renderSRT h m s ms).data =
      digitC (h / 10) :: digitC (h % 10) :: ':' :: digitC (m / 10) :: digitC (m % 10) :: ':' ::
      digitC (s / 10) :: digitC (s % 10) :: ',' ::
      digitC (ms / 100) :: digitC (ms / 10 % 10) :: digitC (ms % 10) :: [] := by
    simp [renderSRT, pad2, pad3dig]
  unfold parseSRTTime
  rw [hdata]
  rw [replaceFirstComma_cons_ne (digitC_ne_comma b1),
      replaceFirstComma_cons_ne (digitC_ne_comma b2),
      replaceFirstComma_cons_ne hcolon,
      replaceFirstComma_cons_ne (digitC_ne_comma b3),
      replaceFirstComma_cons_ne (digitC_ne_comma b4),
      replaceFirstComma_cons_ne hcolon,
      replaceFirstComma_cons_ne (digitC_ne_comma b5),
      replaceFirstComma_cons_ne (digitC_ne_comma b6),
      replaceFirstComma_comma]
  have e1 : h / 10 * 10 + h % 10 = h := by omega
  have e2 : m / 10 * 10 + m % 10 = m := by omega
  have e3 : s / 10 * 10 + s % 10 = s := by omega
  have e4 : ms / 100 * 100 + ms / 10 % 10 * 10 + ms % 10 = ms := by omega
  simp only [goTimeParse, getnum2, expectColon, parseFrac,
    digitC_isDigit b1, digitC_isDigit b2, digitC_isDigit b3, digitC_isDigit b4,
    digitC_isDigit b5, digitC_isDigit b6, digitC_isDigit b7, digitC_isDigit b8,
    digitC_isDigit b9,
    digVal_digitC b1, digVal_digitC b2, digVal_digitC b3, digVal_digitC b4,
    digVal_digitC b5, digVal_digitC b6, digVal_digitC b7, digVal_digitC b8,
    digVal_digitC b9,
    hdot, Bool.true_and, Bool.and_true, if_true, Option.bind_some, Option.some_bind,
    e1, e2, e3, e4]
  rw [if_pos (show (true || ('.' == ',')) = true from by decide), Option.some_bind,
    if_pos (show h < 24 ∧ m < 60 ∧ s < 60 from ⟨by omega, by omega, by omega⟩)]
  rfl

/-- Witness for C3 at the spec's own example `"00:01:23,456"`. -/
theorem parseSRTTime_valid_witness :
    (0 ≤ 23 ∧ 1 ≤ 59 ∧ 23 ≤ 59 ∧ 456 ≤ 999) ∧
    parseSRTTime (renderSRT 0 1 23 456) =
      some ((0 : ℚ) * 3600 + (1 : ℚ) * 60 + (23 : ℚ) + (456 : ℚ) / 1000) :=
  ⟨by decide, parseSRTTime_valid 0 1 23 456 (by decide) (by decide) (by decide) (by decide)⟩

/-- Decimal digits of `n`, most significant first, accumulated with explicit
fuel (à la `Nat.toDigits`) so that the definition is structurally recursive. -/
def natDigitsAux : ℕ → ℕ → List Char → List Char
  | 0, _, acc => acc
  | fuel + 1, n, acc =>
    if n < 10 then digitC n :: acc
    else natDigitsAux fuel (n / 10) (digitC (n % 10) :: acc)

/-- Decimal rendering of a natural number (model of Go's integer formatting). -/
def natDigits (n : ℕ) : List Char := natDigitsAux (n + 1) n []

/-- Round to the nearest integer, ties to even: the rounding Go's `%.3f`
formatting applies to the (here: exact) numeric value.  `r2` is the numerator
of `2 * (q - ⌊q⌋)` over the (positive) denominator of `q`, so the comparisons
against `q.den` compare the fractional part with one half. -/
def roundHalfEven (q : ℚ) : ℤ :=
  let f : ℤ := q.floor
  let r2 : ℤ := 2 * (q.num - f * (q.den : ℤ))
  if r2 < (q.den : ℤ) then f
  else if (q.den : ℤ) < r2 then f + 1
  else if f % 2 = 0 then f else f + 1

/-- Model of Go's `%.3f` verb: sign, integer part, a period, and exactly three
fraction digits. -/
def fmt3 (q : ℚ) : String :=
  let a : ℚ := if q < 0 then -q else q
  let n : ℕ := (roundHalfEven (a * 1000)).toNat
  (if q < 0 then "-" else "") ++ String.mk (natDigits (n / 1000)) ++ "." ++
    String.mk (pad3dig (n % 1000))

/-- Printable ASCII characters other than `"` and `\`: exactly the characters
Go's `%q` verb copies into the quoted string unchanged. -/
def isPlainChar (c : Char) : Bool :=
  decide (0x20 ≤ c.toNat) && decide (c.toNat ≤ 0x7E) && c != '"' && c != '\\'

/-- Strings whose characters are all plain (embedded verbatim by `%q`). -/
def isPlain (s : String) : Bool := s.data.all isPlainChar

/-- A lowercase hexadecimal digit. -/
def hexC (d : ℕ) : Char := if d < 10 then Char.ofNat (48 + d) else Char.ofNat (87 + d)

/-- Per-rune escaping of Go `strconv.Quote` (the implementation of `%q`):
quote and backslash get a backslash, printable characters are kept, control
characters get their mnemonic or `\x`/`\u`/`\U` escapes.  (Go keeps printable
non-ASCII runes unchanged where this model conservatively `\u`-escapes them;
no claim below involves non-ASCII identifiers.) -/
def escChar (c : Char) : List Char :=
  if c = '"' ∨ c = '\\' then ['\\', c]
  else if 0x20 ≤ c.toNat ∧ c.toNat ≤ 0x7E then [c]
  else if c.toNat = 7 then ['\\', 'a']
  else if c.toNat = 8 then ['\\', 'b']
  else if c.toNat = 12 then ['\\', 'f']
  else if c.toNat = 10 then ['\\', 'n']
  else if c.toNat = 13 then ['\\', 'r']
  else if c.toNat = 9 then ['\\', 't']
  else if c.toNat = 11 then ['\\', 'v']
  else if c.toNat < 0x80 then ['\\', 'x', hexC (c.toNat / 16), hexC (c.toNat % 16)]
  else if c.toNat < 0x10000 then
    ['\\', 'u', hexC (c.toNat / 4096 % 16), hexC (c.toNat / 256 % 16),
      hexC (c.toNat / 16 % 16), hexC (c.toNat % 16)]
  else
    ['\\', 'U', hexC (c.toNat / 268435456 % 16), hexC (c.toNat / 16777216 % 16),
      hexC (c.toNat / 1048576 % 16), hexC (c.toNat / 65536 % 16),
      hexC (c.toNat / 4096 % 16), hexC (c.toNat / 256 % 16),
      hexC (c.toNat / 16 % 16), hexC (c.toNat % 16)]

/-- Model of Go's `%q` formatting of a string: double quotes around the
escaped characters. -/
def goQuote (s : String) : String :=
  String.mk ('"' :: ((s.data.map escChar).flatten ++ ['"']))

/-- Model of Go `strings.Join(xs, sep)`. -/
def goJoin (sep : String) : List String → String
  | [] => ""
  | [x] => x
  | x :: xs => x ++ sep ++ goJoin sep xs

/-- The per-interval range predicates `between(t,<start>,<end>)`
(gui.go lines 190-193). -/
def enableConditions (segments : List Segment) : List String :=
  segments.map fun seg => "between(t," ++ fmt3 seg.Start ++ "," ++ fmt3 seg.End ++ ")"

/-- The enable expression: the predicates joined with `+` (gui.go line 195). -/
def enableExpr (segments : List Segment) : String :=
  goJoin "+" (enableConditions segments)

/-- generateFFmpegCommand creates an FFmpeg command to mute audio for the given
segments (gui.go lines 185-199).  `%q` arguments are rendered by `goQuote`. -/
def generateFFmpegCommand (inputVideo outputVideo : String) (segments : List Segment) :
    String :=
  if segments.length = 0 then
    "No segments to mute. Copying input to output: ffmpeg -i " ++ goQuote inputVideo ++
      " -c copy " ++ goQuote outputVideo
  else
    "ffmpeg -i " ++ goQuote inputVideo ++ " -af " ++
      goQuote ("volume=enable='" ++ enableExpr segments ++ "':volume=0") ++
      " -c:v copy -c:a aac " ++ goQuote outputVideo

/-- Model of Go `strings.Index(s, pat)`: position of the leftmost occurrence. -/
def goIndex : List Char → List Char → Option ℕ
  | [], pat => if pat.isPrefixOf ([] : List Char) then some 0 else none
  | s@(_ :: t), pat => if pat.isPrefixOf s then some 0 else (goIndex t pat).map (· + 1)

/-- Model of Go `strings.LastIndex(s, string(c))` for a one-character needle. -/
def goLastIndexCh : List Char → Char → Option ℕ
  | [], _ => none
  | x :: t, c =>
    match goLastIndexCh t c with
    | some j => some (j + 1)
    | none => if x = c then some 0 else none

/-- getVolumeFilter extracts the substring of the last command between the
first `between(` and the final `)`, inclusive (gui.go lines 512-522); empty
when either is absent.  (Go would panic if the last `)` preceded the first
`between(`; `take` clamps instead — that case is unreachable from generated
commands and is not relied on below.) -/
def getVolumeFilter (cmd : String) : String :=
  match goIndex cmd.data ("between(".data), goLastIndexCh cmd.data ')' with
  | some st, some en => String.mk ((cmd.data.drop st).take (en + 1 - st))
  | some _, none => ""
  | none, _ => ""

/-- `s` ends in a period followed by exactly three digits. -/
def hasFrac3 (s : String) : Bool :=
  match s.data.reverse with
  | d1 :: d2 :: d3 :: dot :: _ => d1.isDigit && d2.isDigit && d3.isDigit && (dot == '.')
  | _ => false

theorem escChar_plain {c : Char} (hc : isPlainChar c = true) : escChar c = [c] := by
  simp only [isPlainChar, Bool.and_eq_true, decide_eq_true_eq, bne_iff_ne, ne_eq] at hc
  obtain ⟨⟨⟨h1, h2⟩, h3⟩, h4⟩ := hc
  unfold escChar
  rw [if_neg (by intro h; rcases h with h | h; exact h3 h; exact h4 h), if_pos ⟨h1, h2⟩]

theorem flatten_map_escChar_plain {l : List Char} (h : ∀ c ∈ l, isPlainChar c = true) :
    (l.map escChar).flatten = l := by
  induction l with
  | nil => rfl
  | cons c t ih =>
    simp only [List.map_cons, List.flatten_cons]
    rw [escChar_plain (h c (by simp)), ih (fun x hx => h x (by simp [hx]))]
    rfl

/-- On plain strings, Go's `%q` just wraps the string in double quotes. -/
theorem goQuote_plain {s : String} (h : isPlain s = true) :
    goQuote s = "\"" ++ s ++ "\"" := by
  apply String.ext
  unfold goQuote
  rw [flatten_map_escChar_plain (by simpa [isPlain, List.all_eq_true] using h)]
  simp [String.data_append]

/-- C1 counterexample: even for perfectly plain identifiers the copy-only
directive is NOT exactly `ffmpeg -i "<input>" -c copy "<output>"`: the code
prefixes it with `No segments to mute. Copying input to output: `. -/
theorem generate_copy_directive_cex :
    generateFFmpegCommand "in.mp4" "out.mp4" [] ≠
      "ffmpeg -i \"in.mp4\" -c copy \"out.mp4\"" := by
  decide

/-- C1 (amended): for identifiers made of plain characters (printable ASCII
other than `"` and `\`, which `%q` embeds verbatim), the empty interval set
yields exactly the string
`No segments to mute. Copying input to output: ffmpeg -i "<input>" -c copy "<output>"`
with the identifiers embedded verbatim and nothing else. -/
theorem generate_copy_directive_shape (inputVideo outputVideo : String)
    (hin : isPlain inputVideo = true) (hout : isPlain outputVideo = true) :
    generateFFmpegCommand inputVideo outputVideo [] =
      "No segments to mute. Copying input to output: ffmpeg -i \"" ++ inputVideo ++
        "\" -c copy \"" ++ outputVideo ++ "\"" := by
  unfold generateFFmpegCommand
  rw [if_pos (show ([] : List Segment).length = 0 from rfl), goQuote_plain hin,
    goQuote_plain hout]
  simp only [String.append_assoc]
  rfl

/-- Witness for C1 (amended) at concrete plain identifiers. -/
theorem generate_copy_directive_shape_witness :
    (isPlain "in.mp4" = true ∧ isPlain "out.mp4" = true) ∧
    generateFFmpegCommand "in.mp4" "out.mp4" [] =
      "No segments to mute. Copying input to output: ffmpeg -i \"in.mp4\" -c copy \"out.mp4\"" := by
  refine ⟨⟨by decide, by decide⟩, ?_⟩
  rw [generate_copy_directive_shape "in.mp4" "out.mp4" (by decide) (by decide)]
  rfl

theorem natDigitsAux_mem (fuel : ℕ) : ∀ (n : ℕ) (acc : List Char),
    ∀ c ∈ natDigitsAux fuel n acc, (∃ d, d ≤ 9 ∧ c = digitC d) ∨ c ∈ acc := by
  induction fuel with
  | zero => intro n acc c hc; exact Or.inr hc
  | succ fuel ih =>
    intro n acc c hc
    unfold natDigitsAux at hc
    by_cases h : n < 10
    · rw [if_pos h] at hc
      rcases List.mem_cons.1 hc with h' | h'
      · exact Or.inl ⟨n, by omega, h'⟩
      · exact Or.inr h'
    · rw [if_neg h] at hc
      rcases ih (n / 10) (digitC (n % 10) :: acc) c hc with h' | h'
      · exact Or.inl h'
      · rcases List.mem_cons.1 h' with h'' | h''
        · exact Or.inl ⟨n % 10, by omega, h''⟩
        · exact Or.inr h''

theorem natDigits_mem (n : ℕ) : ∀ c ∈ natDigits n, ∃ d, d ≤ 9 ∧ c = digitC d := by
  intro c hc
  rcases natDigitsAux_mem (n + 1) n [] c hc with h | h
  · exact h
  · simp at h

theorem digitC_plain {x : ℕ} (hx : x ≤ 9) : isPlainChar (digitC x) = true := by
  interval_cases x <;> decide

theorem all_plain_natDigits (n : ℕ) : (natDigits n).all isPlainChar = true := by
  rw [List.all_eq_true]
  intro c hc
  obtain ⟨d, hd, rfl⟩ := natDigits_mem n c hc
  exact digitC_plain hd

theorem all_plain_pad3dig (n : ℕ) : (pad3dig (n % 1000)).all isPlainChar = true := by
  have h1 : n % 1000 / 100 ≤ 9 := by omega
  have h2 : n % 1000 / 10 % 10 ≤ 9 := by omega
  have h3 : n % 1000 % 10 ≤ 9 := by omega
  simp [pad3dig, digitC_plain h1, digitC_plain h2, digitC_plain h3]

theorem isPlain_append (a b : String) : isPlain (a ++ b) = (isPlain a && isPlain b) := by
  simp [isPlain, String.data_append]

/-- Every character `%.3f` emits is plain printable ASCII. -/
theorem fmt3_plain (q : ℚ) : isPlain (fmt3 q) = true := by
  unfold fmt3
  simp only [isPlain_append, Bool.and_eq_true]
  refine ⟨⟨⟨?_, ?_⟩, by decide⟩, ?_⟩
  · by_cases hq : q < 0 <;> simp [hq] <;> decide
  · exact (by simpa [isPlain] using all_plain_natDigits _)
  · exact (by simpa [isPlain] using all_plain_pad3dig _)

theorem goJoin_plain (sep : String) (hsep : isPlain sep = true) :
    ∀ xs : List String, (∀ x ∈ xs, isPlain x = true) → isPlain (goJoin sep xs) = true := by
  intro xs
  induction xs with
  | nil =>
    intro _
    show isPlain "" = true
    decide
  | cons x t ih =>
    intro h
    cases t with
    | nil => exact h x (by simp)
    | cons y t' =>
      show isPlain (x ++ sep ++ goJoin sep (y :: t')) = true
      simp only [isPlain_append, Bool.and_eq_true]
      exact ⟨⟨h x (by simp), hsep⟩, ih (fun z hz => h z (by simp [hz]))⟩

theorem enableConditions_plain (segments : List Segment) :
    ∀ x ∈ enableConditions segments, isPlain x = true := by
  intro x hx
  obtain ⟨seg, _, rfl⟩ := List.mem_map.1 hx
  simp only [isPlain_append, Bool.and_eq_true]
  and_intros <;> first
  | exact fmt3_plain _
  | decide

/-- The enable expression consists only of plain printable ASCII characters. -/
theorem enableExpr_plain (segments : List Segment) : isPlain (enableExpr segments) = true :=
  goJoin_plain "+" (by decide) _ (enableConditions_plain segments)

/-- `%.3f` always ends in a period followed by exactly three digits. -/
theorem fmt3_hasFrac3 (q : ℚ) : hasFrac3 (fmt3 q) = true := by
  unfold fmt3 hasFrac3
  simp [pad3dig, String.data_append, List.reverse_append]
  refine ⟨⟨?_, ?_⟩, ?_⟩ <;> exact digitC_isDigit (by omega)

/-- The full volume filter string is plain printable ASCII. -/
theorem filter_string_plain (segments : List Segment) :
    isPlain ("volume=enable='" ++ enableExpr segments ++ "':volume=0") = true := by
  simp only [isPlain_append, Bool.and_eq_true]
  exact ⟨⟨by decide, enableExpr_plain _⟩, by decide⟩

/-- For a non-empty interval set and plain identifiers the command has the
fixed filtered shape (shared between the shape and recovery theorems). -/
theorem generateFFmpegCommand_filtered_eq (inputVideo outputVideo : String)
    (segments : List Segment) (hne : segments ≠ [])
    (hin : isPlain inputVideo = true) (hout : isPlain outputVideo = true) :
    generateFFmpegCommand inputVideo outputVideo segments =
      "ffmpeg -i \"" ++ inputVideo ++ "\" -af \"volume=enable='" ++ enableExpr segments ++
        "':volume=0\" -c:v copy -c:a aac \"" ++ outputVideo ++ "\"" := by
  unfold generateFFmpegCommand
  rw [if_neg (by simpa using hne), goQuote_plain hin, goQuote_plain hout,
    goQuote_plain (filter_string_plain segments)]
  simp only [String.append_assoc]
  rfl

/-- C2: for every non-empty merged interval set (and identifiers of plain
printable characters, which `%q` embeds verbatim) the generator returns exactly
`ffmpeg -i "<input>" -af "volume=enable='<expr>':volume=0" -c:v copy -c:a aac "<output>"`,
where `<expr>` is the `between(t,<start>,<end>)` predicates joined by `+` in
the given order and every numeric boundary carries exactly three fraction
digits.  Determinism is inherent: the generator is a pure function of its
arguments. -/
theorem generate_filtered_directive_shape (inputVideo outputVideo : String)
    (segments : List Segment) (hne : segments ≠ [])
    (hin : isPlain inputVideo = true) (hout : isPlain outputVideo = true) :
    generateFFmpegCommand inputVideo outputVideo segments =
      "ffmpeg -i \"" ++ inputVideo ++ "\" -af \"volume=enable='" ++ enableExpr segments ++
        "':volume=0\" -c:v copy -c:a aac \"" ++ outputVideo ++ "\"" ∧
    enableExpr segments = goJoin "+" (segments.map fun seg =>
      "between(t," ++ fmt3 seg.Start ++ "," ++ fmt3 seg.End ++ ")") ∧
    ∀ seg ∈ segments, hasFrac3 (fmt3 seg.Start) = true ∧ hasFrac3 (fmt3 seg.End) = true :=
  ⟨generateFFmpegCommand_filtered_eq inputVideo outputVideo segments hne hin hout,
    rfl, fun _ _ => ⟨fmt3_hasFrac3 _, fmt3_hasFrac3 _⟩⟩

/-- Witness for C2 at a concrete one-interval set and plain identifiers. -/
theorem generate_filtered_directive_shape_witness :
    (([Segment.mk 1 2] : List Segment) ≠ [] ∧
      isPlain "in.mp4" = true ∧ isPlain "out.mp4" = true) ∧
    (generateFFmpegCommand "in.mp4" "out.mp4" [Segment.mk 1 2] =
      "ffmpeg -i \"" ++ "in.mp4" ++ "\" -af \"volume=enable='" ++
        enableExpr [Segment.mk 1 2] ++
        "':volume=0\" -c:v copy -c:a aac \"" ++ "out.mp4" ++ "\"" ∧
    enableExpr [Segment.mk 1 2] = goJoin "+" (([Segment.mk 1 2] : List Segment).map fun seg =>
      "between(t," ++ fmt3 seg.Start ++ "," ++ fmt3 seg.End ++ ")") ∧
    ∀ seg ∈ ([Segment.mk 1 2] : List Segment),
      hasFrac3 (fmt3 seg.Start) = true ∧ hasFrac3 (fmt3 seg.End) = true) :=
  ⟨⟨by decide, by decide, by decide⟩,
    generate_filtered_directive_shape "in.mp4" "out.mp4" [Segment.mk 1 2]
      (by decide) (by decide) (by decide)⟩

theorem goIndex_cons (x : Char) (t pat : List Char) :
    goIndex (x :: t) pat =
      if pat.isPrefixOf (x :: t) then some 0 else (goIndex t pat).map (· + 1) := rfl

theorem goLastIndexCh_cons (x : Char) (t : List Char) (c : Char) :
    goLastIndexCh (x :: t) c =
      match goLastIndexCh t c with
      | some j => some (j + 1)
      | none => if x = c then some 0 else none := rfl

/-- `between(` cannot occur at a position whose first 8 characters contain no
opening parenthesis. -/
theorem not_prefix_between {s : List Char} (h : '(' ∉ s.take 8) :
    ¬ ("between(".data.isPrefixOf s = true) := by
  intro hp
  have hpre := List.isPrefixOf_iff_prefix.1 hp
  have htake := List.prefix_iff_eq_take.1 hpre
  apply h
  rw [show ("between(".data).length = 8 from rfl] at htake
  rw [← htake]
  decide

/-- If `p` is free of `(` and `e` starts with `between(`, the leftmost
occurrence of `between(` in `p ++ e` is exactly at position `p.length`. -/
theorem goIndex_append_between (p : List Char) (e : List Char)
    (hp : '(' ∉ p) (he : ∃ r, e = "between(".data ++ r) :
    goIndex (p ++ e) ("between(".data) = some p.length := by
  induction p with
  | nil =>
    obtain ⟨r, rfl⟩ := he
    rw [List.nil_append]
    have hcons : "between(".data ++ r = 'b' :: ("etween(".data ++ r) := rfl
    rw [hcons, goIndex_cons,
      if_pos (show ("between(".data).isPrefixOf ('b' :: ("etween(".data ++ r)) = true from
        List.isPrefixOf_iff_prefix.2 (List.prefix_append "between(".data r))]
    rfl
  | cons c p' ih =>
    have hc : c ≠ '(' := fun hcc => hp (by simp [hcc])
    have hp' : '(' ∉ p' := fun hm => hp (by simp [hm])
    rw [List.cons_append, goIndex_cons, if_neg, ih hp']
    · rfl
    · apply not_prefix_between
      intro hmem
      rw [List.take_cons (by omega)] at hmem
      rcases List.mem_cons.1 hmem with h' | h'
      · exact hc h'.symm
      · rw [List.take_append_eq_append_take] at h'
        rcases List.mem_append.1 h' with h'' | h''
        · exact hp' (List.take_subset _ _ h'')
        · obtain ⟨r, rfl⟩ := he
          have h7 : 7 - p'.length ≤ ("between".data).length := by
            simp only [show ("between".data).length = 7 from rfl]
            omega
          rw [show "between(".data ++ r = "between".data ++ ('(' :: r) from rfl,
            List.take_append_of_le_length h7] at h''
          have := List.take_subset (7 - p'.length) ("between".data) h''
          revert this
          decide

theorem goLastIndexCh_not_mem {l : List Char} {c : Char} (h : c ∉ l) :
    goLastIndexCh l c = none := by
  induction l with
  | nil => rfl
  | cons x t ih =>
    rw [goLastIndexCh_cons, ih (fun hm => h (by simp [hm]))]
    simp only []
    rw [if_neg (fun hx => h (by simp [hx]))]

theorem goLastIndexCh_append_some {b : List Char} {c : Char} {j : ℕ}
    (hb : goLastIndexCh b c = some j) (a : List Char) :
    goLastIndexCh (a ++ b) c = some (a.length + j) := by
  induction a with
  | nil => simpa using hb
  | cons x a' ih =>
    rw [List.cons_append, goLastIndexCh_cons, ih]
    simp only [List.length_cons]
    congr 1
    omega

theorem goLastIndexCh_append_none {b : List Char} {c : Char}
    (hb : goLastIndexCh b c = none) (a : List Char) :
    goLastIndexCh (a ++ b) c = goLastIndexCh a c := by
  induction a with
  | nil => simpa using hb
  | cons x a' ih =>
    rw [List.cons_append, goLastIndexCh_cons, ih, goLastIndexCh_cons]

theorem enableExpr_single (a : Segment) :
    enableExpr [a] = "between(t," ++ fmt3 a.Start ++ "," ++ fmt3 a.End ++ ")" := rfl

theorem enableExpr_cons_cons (a b : Segment) (t : List Segment) :
    enableExpr (a :: b :: t) =
      ("between(t," ++ fmt3 a.Start ++ "," ++ fmt3 a.End ++ ")") ++ "+" ++
        enableExpr (b :: t) := rfl

/-- A non-empty enable expression starts with the token `between(`. -/
theorem enableExpr_head (segments : List Segment) (hne : segments ≠ []) :
    ∃ r, (enableExpr segments).data = "between(".data ++ r := by
  cases segments with
  | nil => exact absurd rfl hne
  | cons a t =>
    have hsplit : "between(t,".data = "between(".data ++ "t,".data := rfl
    cases t with
    | nil =>
      refine ⟨"t,".data ++ ((fmt3 a.Start).data ++ (",".data ++ ((fmt3 a.End).data ++
        ")".data))), ?_⟩
      rw [enableExpr_single]
      simp only [String.data_append, hsplit, List.append_assoc]
      rfl
    | cons b t' =>
      refine ⟨"t,".data ++ ((fmt3 a.Start).data ++ (",".data ++ ((fmt3 a.End).data ++
        (")".data ++ ("+".data ++ (enableExpr (b :: t')).data))))), ?_⟩
      rw [enableExpr_cons_cons]
      simp only [String.data_append, hsplit, List.append_assoc]
      rfl

/-- A non-empty enable expression ends with a closing parenthesis. -/
theorem enableExpr_last : ∀ (segments : List Segment), segments ≠ [] →
    ∃ e, (enableExpr segments).data = e ++ [')']
  | [], h => absurd rfl h
  | [a], _ => by
    refine ⟨"between(t,".data ++ ((fmt3 a.Start).data ++ (",".data ++ (fmt3 a.End).data)), ?_⟩
    rw [enableExpr_single]
    have hr : ")".data = [')'] := rfl
    simp only [String.data_append, hr, List.append_assoc]
  | a :: b :: t, _ => by
    obtain ⟨e, he⟩ := enableExpr_last (b :: t) (by simp)
    refine ⟨"between(t,".data ++ ((fmt3 a.Start).data ++ (",".data ++ ((fmt3 a.End).data ++
      (")".data ++ ("+".data ++ e))))), ?_⟩
    rw [enableExpr_cons_cons]
    simp only [String.data_append, he, List.append_assoc]

/-- Splicing lemma for `getVolumeFilter`: on a command of the form
`P ++ E ++ S` where `P` contains no `(`, `S` contains no `)`, and the
expression `E` starts with `between(` and ends with `)`, the extraction
returns exactly `E`. -/
theorem getVolumeFilter_decomp (P E S : List Char)
    (hp : '(' ∉ P) (hS : ')' ∉ S)
    (hhead : ∃ r, E = "between(".data ++ r)
    (hlastE : ∃ e, E = e ++ [')']) :
    getVolumeFilter (String.mk (P ++ (E ++ S))) = String.mk E := by
  obtain ⟨e1, he1⟩ := hlastE
  have hstart : goIndex (P ++ (E ++ S)) ("between(".data) = some P.length := by
    apply goIndex_append_between P (E ++ S) hp
    obtain ⟨r, hr⟩ := hhead
    exact ⟨r ++ S, by rw [hr, List.append_assoc]⟩
  have hlast : goLastIndexCh (P ++ (E ++ S)) ')' = some (P.length + e1.length) := by
    rw [show P ++ (E ++ S) = (P ++ E) ++ S from (List.append_assoc P E S).symm,
      goLastIndexCh_append_none (goLastIndexCh_not_mem hS),
      show P ++ E = (P ++ e1) ++ [')'] from by rw [he1, List.append_assoc],
      goLastIndexCh_append_some (show goLastIndexCh [')'] ')' = some 0 from rfl)]
    simp [List.length_append]
  show (match goIndex (P ++ (E ++ S)) ("between(".data),
      goLastIndexCh (P ++ (E ++ S)) ')' with
    | some st, some en => String.mk (((P ++ (E ++ S)).drop st).take (en + 1 - st))
    | some _, none => ""
    | none, _ => "") = String.mk E
  rw [hstart, hlast]
  have harith : P.length + e1.length + 1 - P.length = E.length := by
    rw [he1, List.length_append]
    simp only [List.length_singleton]
    omega
  show String.mk (((P ++ (E ++ S)).drop P.length).take (P.length + e1.length + 1 - P.length)) =
    String.mk E
  rw [harith, List.drop_left, List.take_left]

/-- C7 counterexample: with a `)` inside the output identifier, the last `)`
of the command lies inside the quoted output path, so the spliced substring is
NOT the enable expression: the recovery is not lossless for arbitrary
identifiers. -/
theorem getVolumeFilter_cex :
    getVolumeFilter (generateFFmpegCommand "in.mp4" "out(1).mp4" [Segment.mk 1 2]) ≠
      enableExpr [Segment.mk 1 2] := by
  with_unfolding_all decide

/-- C7 (amended): for every non-empty merged interval set and every pair of
plain-character identifiers such that the input contains no `(` and the output
contains no `)`, the substring of the generated command between the first
`between(` token and the final `)` (as computed by `getVolumeFilter`) equals
exactly the enable expression the generator joined from the intervals. -/
theorem getVolumeFilter_recovers (inputVideo outputVideo : String) (segments : List Segment)
    (hne : segments ≠ [])
    (hin : isPlain inputVideo = true) (hout : isPlain outputVideo = true)
    (hinp : '(' ∉ inputVideo.data) (houtp : ')' ∉ outputVideo.data) :
    getVolumeFilter (generateFFmpegCommand inputVideo outputVideo segments) =
      enableExpr segments := by
  have hdata : (generateFFmpegCommand inputVideo outputVideo segments).data =
      ("ffmpeg -i \"".data ++ (inputVideo.data ++ "\" -af \"volume=enable='".data)) ++
        ((enableExpr segments).data ++
          ("':volume=0\" -c:v copy -c:a aac \"".data ++ (outputVideo.data ++ "\"".data))) := by
    rw [generateFFmpegCommand_filtered_eq inputVideo outputVideo segments hne hin hout]
    simp only [String.data_append, List.append_assoc]
  have hcmd : generateFFmpegCommand inputVideo outputVideo segments =
      String.mk (("ffmpeg -i \"".data ++ (inputVideo.data ++ "\" -af \"volume=enable='".data)) ++
        ((enableExpr segments).data ++
          ("':volume=0\" -c:v copy -c:a aac \"".data ++ (outputVideo.data ++ "\"".data)))) :=
    String.ext hdata
  rw [hcmd]
  have hres := getVolumeFilter_decomp
    ("ffmpeg -i \"".data ++ (inputVideo.data ++ "\" -af \"volume=enable='".data))
    ((enableExpr segments).data)
    ("':volume=0\" -c:v copy -c:a aac \"".data ++ (outputVideo.data ++ "\"".data))
    ?_ ?_ (enableExpr_head segments hne) (enableExpr_last segments hne)
  · rw [hres]
  · intro hm
    rcases List.mem_append.1 hm with h | h
    · revert h; decide
    · rcases List.mem_append.1 h with h | h
      · exact hinp h
      · revert h; decide
  · intro hm
    rcases List.mem_append.1 hm with h | h
    · revert h; decide
    · rcases List.mem_append.1 h with h | h
      · exact houtp h
      · revert h; decide

/-- Witness for C7 at a concrete interval set and parenthesis-free
identifiers. -/
theorem getVolumeFilter_recovers_witness :
    (([Segment.mk 1 2] : List Segment) ≠ [] ∧ isPlain "in.mp4" = true ∧
      isPlain "out.mp4" = true ∧ '(' ∉ "in.mp4".data ∧ ')' ∉ "out.mp4".data) ∧
    getVolumeFilter (generateFFmpegCommand "in.mp4" "out.mp4" [Segment.mk 1 2]) =
      enableExpr [Segment.mk 1 2] :=
  ⟨⟨by decide, by decide, by decide, by decide, by decide⟩,
    getVolumeFilter_recovers "in.mp4" "out.mp4" [Segment.mk 1 2]
      (by decide) (by decide) (by decide) (by decide) (by decide)⟩

/-- Model of `unicode.IsSpace`, the rune class `strings.TrimSpace` trims. -/
def goIsSpace (c : Char) : Bool :=
  c.toNat == 9 || c.toNat == 10 || c.toNat == 11 || c.toNat == 12 || c.toNat == 13 ||
  c.toNat == 32 || c.toNat == 133 || c.toNat == 160 || c.toNat == 5760 ||
  (decide (8192 ≤ c.toNat) && decide (c.toNat ≤ 8202)) || c.toNat == 8232 ||
  c.toNat == 8233 || c.toNat == 8239 || c.toNat == 8287 || c.toNat == 12288

/-- Model of Go `strings.TrimSpace`. -/
def goTrim (l : List Char) : List Char :=
  ((l.dropWhile goIsSpace).reverse.dropWhile goIsSpace).reverse

/-- RE2's Perl character class `\s`, i.e. `[\t\n\f\r ]`. -/
def reSpace (c : Char) : Bool :=
  c == ' ' || c == Char.ofNat 9 || c == Char.ofNat 10 || c == Char.ofNat 12 ||
    c == Char.ofNat 13

/-- Lower-casing of block text and vocabulary (`strings.ToLower`; ASCII range,
which covers the vocabulary involved here). -/
def toLowerL (l : List Char) : List Char := l.map Char.toLower

/-- Model of `strings.Contains(s, pat)` (`strings.Index(s, pat) >= 0`). -/
def strContains (s pat : List Char) : Bool := (goIndex s pat).isSome

/-- Try to match the scanner's regular expression
`(\d{2}:\d{2}:\d{2},\d{3})\s*-->\s*(\d{2}:\d{2}:\d{2},\d{3})` at the START of
`l`; on success return the two captured timestamps.  The pattern here is
deterministic: `\s` is disjoint from both `-` and digits, so maximal-munch
space skipping is exact. -/
def matchTSFrom (l : List Char) : Option (List Char × List Char) :=
  if tsPat12 l then
    match (l.drop 12).dropWhile reSpace with
    | '-' :: '-' :: '>' :: rest2 =>
      let rest3 := rest2.dropWhile reSpace
      if tsPat12 rest3 then some (l.take 12, rest3.take 12) else none
    | _ => none
  else none

/-- Leftmost match of the timestamp-range pattern in the line
(`MatchString`/`FindStringSubmatch` of the scanner's regular expression). -/
def findTS : List Char → Option (List Char × List Char)
  | [] => none
  | l@(_ :: t) =>
    match matchTSFrom l with
    | some r => some r
    | none => findTS t

/-- The swear loop run when a blank line closes a block (gui.go lines 86-103):
per matching swear with a negative adjusted boundary the Go loop logs a
warning and `continue`s to the next swear; the first matching swear with
non-negative boundaries appends the interval and breaks.  Warnings carry the
data of the logged message: (offset, original start, original end). -/
def blockScanMid (swears : List String) (textLower : List Char) (s e o : ℚ) :
    Option Segment × List (ℚ × ℚ × ℚ) :=
  match swears with
  | [] => (none, [])
  | w :: rest =>
    if strContains textLower (toLowerL w.data) then
      if s + o < 0 ∨ e + o < 0 then
        let r := blockScanMid rest textLower s e o
        (r.1, (o, s, e) :: r.2)
      else (some ⟨s + o, e + o⟩, [])
    else blockScanMid rest textLower s e o

/-- The swear loop run on the final block at end of input (gui.go lines
136-153): the first matching swear decides — append when both adjusted
boundaries are non-negative, otherwise log one warning — then break. -/
def blockScanEnd (swears : List String) (textLower : List Char) (s e o : ℚ) :
    Option Segment × List (ℚ × ℚ × ℚ) :=
  match swears with
  | [] => (none, [])
  | w :: rest =>
    if strContains textLower (toLowerL w.data) then
      if 0 ≤ s + o ∧ 0 ≤ e + o then (some ⟨s + o, e + o⟩, [])
      else (none, [(o, s, e)])
    else blockScanEnd rest textLower s e o

/-- The scanner's loop state in `findSwearTimestamps`. -/
structure ScanState where
  segments : List Segment
  currentStart : ℚ
  currentEnd : ℚ
  inSubtitleBlock : Bool
  subtitleText : List Char
  warnings : List (ℚ × ℚ × ℚ)
deriving DecidableEq, Repr

/-- Go zero values of the loop variables. -/
def initScanState : ScanState := ⟨[], 0, 0, false, [], []⟩

/-- Blank-line block finalization (the `line == ""` branch). -/
def endBlock (swears : List String) (offset : ℚ) (st : ScanState) : ScanState :=
  if st.inSubtitleBlock then
    let r := blockScanMid swears (toLowerL st.subtitleText) st.currentStart st.currentEnd offset
    { st with
      segments := st.segments ++ r.1.toList
      warnings := st.warnings ++ r.2
      inSubtitleBlock := false
      subtitleText := [] }
  else st

/-- One iteration of the scanner loop (gui.go lines 82-132): trim the line;
a blank line closes an open block; a timestamp-range line outside a block
opens one (a timestamp parse error aborts the scan); any other line inside a
block is accumulated as block text followed by one space. -/
def scanStep (swears : List String) (offset : ℚ) (st : ScanState) (line : String) :
    Option ScanState :=
  let l := goTrim line.data
  if l = [] then some (endBlock swears offset st)
  else if (findTS l).isSome && !st.inSubtitleBlock then
    match findTS l with
    | some (m1, m2) =>
      match parseSRTTime (String.mk m1), parseSRTTime (String.mk m2) with
      | some a, some b =>
        some { st with currentStart := a, currentEnd := b, inSubtitleBlock := true }
      | _, _ => none
    | none => none
  else if st.inSubtitleBlock then
    some { st with subtitleText := st.subtitleText ++ l ++ [' '] }
  else some st

/-- Fold of `scanStep` over the lines of the subtitle source. -/
def scanLines (swears : List String) (offset : ℚ) : ScanState → List String → Option ScanState
  | st, [] => some st
  | st, line :: rest =>
    match scanStep swears offset st line with
    | none => none
    | some st' => scanLines swears offset st' rest

/-- End-of-input processing of a still-open block (gui.go lines 136-153). -/
def finalizeEOF (swears : List String) (offset : ℚ) (st : ScanState) :
    List Segment × List (ℚ × ℚ × ℚ) :=
  if st.inSubtitleBlock then
    let r := blockScanEnd swears (toLowerL st.subtitleText) st.currentStart st.currentEnd offset
    (st.segments ++ r.1.toList, st.warnings ++ r.2)
  else (st.segments, st.warnings)

/-- findSwearTimestamps searches an SRT source for swear words and returns
mute segments (gui.go lines 67-155); the file is modelled as its list of
lines, the emitted warnings as their (offset, start, end) data, and a
timestamp parse failure as `none`. -/
def findSwearTimestamps (lines swears : List String) (offset : ℚ) :
    Option (List Segment × List (ℚ × ℚ × ℚ)) :=
  (scanLines swears offset initScanState lines).map (finalizeEOF swears offset)

theorem blockScanMid_cons (w : String) (rest : List String) (textLower : List Char)
    (s e o : ℚ) :
    blockScanMid (w :: rest) textLower s e o =
      if strContains textLower (toLowerL w.data) then
        if s + o < 0 ∨ e + o < 0 then
          ((blockScanMid rest textLower s e o).1,
            (o, s, e) :: (blockScanMid rest textLower s e o).2)
        else (some ⟨s + o, e + o⟩, [])
      else blockScanMid rest textLower s e o := rfl

theorem blockScanEnd_cons (w : String) (rest : List String) (textLower : List Char)
    (s e o : ℚ) :
    blockScanEnd (w :: rest) textLower s e o =
      if strContains textLower (toLowerL w.data) then
        if 0 ≤ s + o ∧ 0 ≤ e + o then (some ⟨s + o, e + o⟩, [])
        else (none, [(o, s, e)])
      else blockScanEnd rest textLower s e o := rfl

/-- With negative adjusted boundaries the mid-file loop never emits a
segment, whatever the vocabulary. -/
theorem blockScanMid_neg_fst (swears : List String) (textLower : List Char) (s e o : ℚ)
    (hneg : s + o < 0 ∨ e + o < 0) :
    (blockScanMid swears textLower s e o).1 = none := by
  induction swears with
  | nil => rfl
  | cons w rest ih =>
    rw [blockScanMid_cons]
    by_cases hc : strContains textLower (toLowerL w.data) = true
    · rw [if_pos hc, if_pos hneg]
      exact ih
    · rw [if_neg hc]
      exact ih

/-- C5: for every matched block and scalar offset, the Extractor emits exactly
the interval `(blockStart + offset, blockEnd + offset)` when both adjusted
boundaries are non-negative; when either is negative it emits no interval at
all (never clamping) and a warning carrying the offset and the original
pre-offset boundaries — in both the blank-line and the end-of-input
finalization paths. -/
theorem extractor_offset_behavior (swears : List String) (textLower : List Char)
    (s e o : ℚ)
    (hmatch : ∃ w ∈ swears, strContains textLower (toLowerL w.data) = true) :
    (0 ≤ s + o ∧ 0 ≤ e + o →
      blockScanMid swears textLower s e o = (some ⟨s + o, e + o⟩, []) ∧
      blockScanEnd swears textLower s e o = (some ⟨s + o, e + o⟩, [])) ∧
    (s + o < 0 ∨ e + o < 0 →
      (blockScanMid swears textLower s e o).1 = none ∧
      (o, s, e) ∈ (blockScanMid swears textLower s e o).2 ∧
      blockScanEnd swears textLower s e o = (none, [(o, s, e)])) := by
  induction swears with
  | nil =>
    obtain ⟨w, hw, _⟩ := hmatch
    simp at hw
  | cons w rest ih =>
    by_cases hc : strContains textLower (toLowerL w.data) = true
    · constructor
      · intro hpos
        have hnneg : ¬ (s + o < 0 ∨ e + o < 0) := by push_neg; exact ⟨hpos.1, hpos.2⟩
        constructor
        · rw [blockScanMid_cons, if_pos hc, if_neg hnneg]
        · rw [blockScanEnd_cons, if_pos hc, if_pos hpos]
      · intro hneg
        refine ⟨blockScanMid_neg_fst _ _ _ _ _ hneg, ?_, ?_⟩
        · rw [blockScanMid_cons, if_pos hc, if_pos hneg]
          simp
        · rw [blockScanEnd_cons, if_pos hc, if_neg ?_]
          intro hpos
          rcases hneg with h | h
          · exact absurd hpos.1 (not_le.2 h)
          · exact absurd hpos.2 (not_le.2 h)
    · have hmatch' : ∃ w' ∈ rest, strContains textLower (toLowerL w'.data) = true := by
        obtain ⟨w', hw', hcw⟩ := hmatch
        rcases List.mem_cons.1 hw' with h | h
        · exact absurd (h ▸ hcw) hc
        · exact ⟨w', h, hcw⟩
      have hr := ih hmatch'
      constructor
      · intro hpos
        exact ⟨by rw [blockScanMid_cons, if_neg hc]; exact (hr.1 hpos).1,
          by rw [blockScanEnd_cons, if_neg hc]; exact (hr.1 hpos).2⟩
      · intro hneg
        refine ⟨?_, ?_, ?_⟩
        · rw [blockScanMid_cons, if_neg hc]; exact (hr.2 hneg).1
        · rw [blockScanMid_cons, if_neg hc]; exact (hr.2 hneg).2.1
        · rw [blockScanEnd_cons, if_neg hc]; exact (hr.2 hneg).2.2

/-- Witness for C5: the spec's example — term "fuck" in block
`00:00:05,000 --> 00:00:06,000` with offset -0.5 — and its discarded mirror. -/
theorem extractor_offset_behavior_witness :
    (∃ w ∈ ["fuck"], strContains (toLowerL "Oh FUCK that ".data) (toLowerL w.data) = true) ∧
    ((0 ≤ (5 : ℚ) + mkRat (-1) 2 ∧ 0 ≤ (6 : ℚ) + mkRat (-1) 2 →
      blockScanMid ["fuck"] (toLowerL "Oh FUCK that ".data) 5 6 (mkRat (-1) 2) =
        (some ⟨5 + mkRat (-1) 2, 6 + mkRat (-1) 2⟩, []) ∧
      blockScanEnd ["fuck"] (toLowerL "Oh FUCK that ".data) 5 6 (mkRat (-1) 2) =
        (some ⟨5 + mkRat (-1) 2, 6 + mkRat (-1) 2⟩, [])) ∧
    ((5 : ℚ) + mkRat (-1) 2 < 0 ∨ (6 : ℚ) + mkRat (-1) 2 < 0 →
      (blockScanMid ["fuck"] (toLowerL "Oh FUCK that ".data) 5 6 (mkRat (-1) 2)).1 = none ∧
      (mkRat (-1) 2, (5 : ℚ), (6 : ℚ)) ∈
        (blockScanMid ["fuck"] (toLowerL "Oh FUCK that ".data) 5 6 (mkRat (-1) 2)).2 ∧
      blockScanEnd ["fuck"] (toLowerL "Oh FUCK that ".data) 5 6 (mkRat (-1) 2) =
        (none, [(mkRat (-1) 2, 5, 6)]))) :=
  ⟨by decide,
    extractor_offset_behavior ["fuck"] (toLowerL "Oh FUCK that ".data) 5 6 (mkRat (-1) 2)
      (by decide)⟩

/-- C8: a line matching the timestamp-range pattern that is encountered while
the scanner is already inside a block is accumulated as ordinary block text
(trimmed line plus one space) of the current block: the boundaries, the
in-block flag, the collected segments and the warnings are unchanged, so no
new block is started. -/
theorem scanStep_inblock_timestamp_as_text (swears : List String) (offset : ℚ)
    (st : ScanState) (line : String)
    (hin : st.inSubtitleBlock = true)
    (hblank : goTrim line.data ≠ [])
    (_hts : (findTS (goTrim line.data)).isSome = true) :
    scanStep swears offset st line =
      some { st with subtitleText := st.subtitleText ++ goTrim line.data ++ [' '] } := by
  have hcond : ¬ (((findTS (goTrim line.data)).isSome && !st.inSubtitleBlock) = true) := by
    rw [hin]
    simp
  show (if goTrim line.data = [] then some (endBlock swears offset st)
    else if (findTS (goTrim line.data)).isSome && !st.inSubtitleBlock then
      match findTS (goTrim line.data) with
      | some (m1, m2) =>
        match parseSRTTime (String.mk m1), parseSRTTime (String.mk m2) with
        | some a, some b =>
          some { st with currentStart := a, currentEnd := b, inSubtitleBlock := true }
        | _, _ => none
      | none => none
    else if st.inSubtitleBlock then
      some { st with subtitleText := st.subtitleText ++ goTrim line.data ++ [' '] }
    else some st) = some { st with subtitleText := st.subtitleText ++ goTrim line.data ++ [' '] }
  rw [if_neg hblank, if_neg hcond, if_pos (by rw [hin])]

/-- Witness for C8: a timestamp-range line arriving inside an open block. -/
theorem scanStep_inblock_timestamp_as_text_witness :
    ((ScanState.mk [] 1 2 true "hello ".data []).inSubtitleBlock = true ∧
      goTrim ("00:00:03,000 --> 00:00:04,000" : String).data ≠ [] ∧
      (findTS (goTrim ("00:00:03,000 --> 00:00:04,000" : String).data)).isSome = true) ∧
    scanStep [] 0 (ScanState.mk [] 1 2 true "hello ".data []) "00:00:03,000 --> 00:00:04,000" =
      some { ScanState.mk [] 1 2 true "hello ".data [] with
        subtitleText := "hello ".data ++
          goTrim ("00:00:03,000 --> 00:00:04,000" : String).data ++ [' '] } :=
  ⟨⟨rfl, by decide, by decide⟩,
    scanStep_inblock_timestamp_as_text [] 0 (ScanState.mk [] 1 2 true "hello ".data [])
      "00:00:03,000 --> 00:00:04,000" rfl (by decide) (by decide)⟩

theorem scanLines_append (swears : List String) (offset : ℚ) (a b : List String) :
    ∀ st : ScanState, scanLines swears offset st (a ++ b) =
      match scanLines swears offset st a with
      | none => none
      | some st' => scanLines swears offset st' b := by
  induction a with
  | nil => intro st; rfl
  | cons line rest ih =>
    intro st
    rw [List.cons_append]
    show (match scanStep swears offset st line with
      | none => none
      | some st' => scanLines swears offset st' (rest ++ b)) =
      match (match scanStep swears offset st line with
        | none => none
        | some st' => scanLines swears offset st' rest) with
      | none => none
      | some st' => scanLines swears offset st' b
    cases scanStep swears offset st line with
    | none => rfl
    | some st' => exact ih st'

/-- Both finalization paths make the same segment decision for a block. -/
theorem blockScan_fst_eq (swears : List String) (textLower : List Char) (s e o : ℚ) :
    (blockScanMid swears textLower s e o).1 = (blockScanEnd swears textLower s e o).1 := by
  induction swears with
  | nil => rfl
  | cons w rest ih =>
    rw [blockScanMid_cons, blockScanEnd_cons]
    by_cases hc : strContains textLower (toLowerL w.data) = true
    · rw [if_pos hc, if_pos hc]
      by_cases hneg : s + o < 0 ∨ e + o < 0
      · rw [if_pos hneg, if_neg ?_]
        · exact blockScanMid_neg_fst rest textLower s e o hneg
        · intro hpos
          rcases hneg with h | h
          · exact absurd hpos.1 (not_le.2 h)
          · exact absurd hpos.2 (not_le.2 h)
      · push_neg at hneg
        rw [if_neg (by push_neg; exact hneg), if_pos hneg]
    · rw [if_neg hc, if_neg hc]
      exact ih

/-- The segments obtained when a blank line closes the final block equal the
segments the end-of-input finalization produces for it. -/
theorem finalizeEOF_endBlock (swears : List String) (offset : ℚ) (st : ScanState) :
    (finalizeEOF swears offset (endBlock swears offset st)).1 =
      (finalizeEOF swears offset st).1 := by
  unfold endBlock finalizeEOF
  by_cases hb : st.inSubtitleBlock = true
  · rw [if_pos hb]
    simp only [if_pos hb, Bool.false_eq_true, if_false]
    rw [blockScan_fst_eq swears (toLowerL st.subtitleText) st.currentStart st.currentEnd offset]
  · rw [if_neg hb, if_neg hb]

/-- C9: end-of-input acts as an implicit block terminator: for every line
sequence, the segments extracted from `lines` equal the segments extracted
from `lines` with an explicit trailing blank separator appended — a final
block with no trailing blank line is still finalized, matched against the
vocabulary and (on a match with non-negative adjusted boundaries) contributes
its interval. -/
theorem eof_finalizes_last_block (lines swears : List String) (offset : ℚ) :
    Option.map Prod.fst (findSwearTimestamps lines swears offset) =
      Option.map Prod.fst (findSwearTimestamps (lines ++ [""]) swears offset) := by
  unfold findSwearTimestamps
  rw [scanLines_append]
  cases h : scanLines swears offset initScanState lines with
  | none => rfl
  | some st =>
    have hstep : scanStep swears offset st "" = some (endBlock swears offset st) := rfl
    show Option.map Prod.fst (Option.map (finalizeEOF swears offset) (some st)) =
      Option.map Prod.fst (Option.map (finalizeEOF swears offset)
        (scanLines swears offset st [""]))
    have hone : scanLines swears offset st [""] = some (endBlock swears offset st) := by
      show (match scanStep swears offset st "" with
        | none => none
        | some st' => scanLines swears offset st' []) = _
      rw [hstep]
      rfl
    rw [hone]
    exact congrArg some (finalizeEOF_endBlock swears offset st).symm
